import Mathlib

/-!
Verification of the complete-tree-exploration engine for multi-player bandits
(`complete_tree_exploration_for_MP_bandits.py`).

The Python code is shallowly embedded: the four per-player statistics matrices
`S`, `Stilde`, `N`, `Ntilde` become lists of lists of naturals, a `State`
becomes the structure `StateData` (holding exactly the fields that take part
in the structural hash: the four matrices plus `t` and `depth`), the shared
`mus` / `players` references become explicit parameters, probabilities live in
an arbitrary field (rational means instantiate it with `ℚ`, symbolic means
with a field of rational functions), and the exploration tree built by the
mutating methods becomes an explicit inductive tree.
-/

/-- Matrices of counters, indexed by (player, arm). -/
abbrev Mat := List (List ℕ)

/-- Sum of all entries of a matrix (`np.sum`). -/
def matSum (m : Mat) : ℕ := (m.map List.sum).sum

/-- Minimum of all entries of a matrix (`np.min`); junk value 0 on the empty
matrix, where numpy would raise. -/
def matMin (m : Mat) : ℕ :=
  match m.flatten with
  | [] => 0
  | x :: xs => xs.foldl Nat.min x

/-- Shape predicate: `m` is an `M × K` matrix. -/
def hasShape (m : Mat) (M K : ℕ) : Prop :=
  m.length = M ∧ ∀ r ∈ m, r.length = K

/-- Embedding of the hashable part of the Python `State` class: the four
statistics matrices together with the time step `t` and the `depth` counter.
These six fields are exactly the components of the tuple used by
`State.__hash__`, so equality of `StateData` is the deduplication criterion of
the engine.  The shared `mus` and `players` references and the owned
`children` / `probas` lists are kept outside of this structure (as parameters
and as the explicit exploration tree, respectively). -/
structure StateData where
  S : Mat
  Stilde : Mat
  N : Mat
  Ntilde : Mat
  t : ℕ
  depth : ℤ
  deriving DecidableEq, Repr

/-- Embedding of `State.__init__`: arrays are stored (copying is implicit in a
functional model) and `t` is (re)computed as `np.sum(N)`. -/
def StateData.make (S Stilde N Ntilde : Mat) (depth : ℤ) : StateData :=
  { S := S, Stilde := Stilde, N := N, Ntilde := Ntilde, t := matSum N, depth := depth }

/-- Embedding of `State.copy`: a fresh `State` built from the same four
matrices and the same depth; note that the constructor recomputes
`t = np.sum(N)`, discarding the parent's `t` field. -/
def StateData.copy (s : StateData) : StateData :=
  StateData.make s.S s.Stilde s.N s.Ntilde s.depth

/-- Number of players, `self.M = min(np.shape(S))`. -/
def StateData.Mdim (s : StateData) : ℕ := Nat.min s.S.length (s.S.headD []).length

/-- Number of arms, `self.K = max(np.shape(S))`. -/
def StateData.Kdim (s : StateData) : ℕ := Nat.max s.S.length (s.S.headD []).length

/-- Add `v` to entry `i` of a row (`row[i] += v`; out-of-range writes are
dropped, in-range is the only case exercised by the engine). -/
def updRow (r : List ℕ) (i v : ℕ) : List ℕ := r.set i (r.getD i 0 + v)

/-- Add `v` to entry `(j, i)` of a matrix (`m[j, i] += v`). -/
def updMat (m : Mat) (j i v : ℕ) : Mat := m.set j (updRow (m.getD j []) i v)

/-- Embedding of the collision vector of `all_deltas.delta`:
`collisions = [counter.get(k, 0) >= 2 for k in range(self.K)]`, where
`counter` counts multiplicities in the decision profile. -/
def collisionsOf (decisions : List ℕ) (K : ℕ) : List Bool :=
  (List.range K).map (fun k => decide (2 ≤ decisions.count k))

/-- First two statements of `all_deltas.delta`: `s.t += 1; s.depth -= 1`. -/
def deltaInit (s : StateData) : StateData :=
  { s with t := s.t + 1, depth := s.depth - 1 }

/-- Body of the loop of `all_deltas.delta` for one tuple
`(j, Ij, b, c)` drawn from `zip(range(M), decisions, coin_flips, collisions)`:
always `S[j, Ij] += b` and `N[j, Ij] += 1`; when `c` is false additionally
`Stilde[j, Ij] += b` and `Ntilde[j, Ij] += 1`. -/
def deltaStep (st : StateData) (q : (ℕ × ℕ) × Bool × Bool) : StateData :=
  let j := q.1.1
  let Ij := q.1.2
  let b := q.2.1
  let c := q.2.2
  let st1 := { st with S := updMat st.S j Ij (cond b 1 0), N := updMat st.N j Ij 1 }
  if c then st1
  else { st1 with Stilde := updMat st1.Stilde j Ij (cond b 1 0),
                  Ntilde := updMat st1.Ntilde j Ij 1 }

/-- Embedding of the transition function `delta` of `State.all_deltas`.
Note that the source iterates over
`zip(range(self.M), decisions, coin_flips, collisions)`, so the outcome bit
and the collision flag paired with player `j` are `coin_flips[j]` and
`collisions[j]` — indexed by the *player position* `j`, not by the chosen arm
`Ij` (and the zip truncates to the shortest input, of length `M` since
`M ≤ K`).  The embedding reproduces this faithfully. -/
def applyDelta (M K : ℕ) (decisions : List ℕ) (coinFlips : List Bool)
    (s : StateData) : StateData :=
  let collisions := collisionsOf decisions K
  let quads := ((List.range M).zip decisions).zip (coinFlips.zip collisions)
  quads.foldl deltaStep (deltaInit s)

/-- Cartesian product of a list of lists, in the order of
`itertools.product(*lists)` (first factor varies slowest). -/
def cartesianProduct {γ : Type _} : List (List γ) → List (List γ)
  | [] => [[]]
  | l :: ls => l.flatMap (fun x => (cartesianProduct ls).map (fun rest => x :: rest))

/-- All joint coin-flip vectors, `itertools.product([0, 1], repeat=K)`
(`false` for 0 and `true` for 1, first coordinate varies slowest). -/
def coinProfiles : ℕ → List (List Bool)
  | 0 => [[]]
  | k + 1 => [false, true].flatMap (fun b => (coinProfiles k).map (fun rest => b :: rest))

/-- Probability of one joint coin flip:
`prod(mu if b else (1 - mu) for b, mu in zip(coin_flips, self.mus))`. -/
def probaOfCoinFlip {α : Type} [Field α] (mus : List α) (cf : List Bool) : α :=
  ((cf.zip mus).map (fun bm => if bm.1 then bm.2 else 1 - bm.2)).prod

/-- Type of the memory-less bandit algorithms: a decision function receives
the player index and the state and returns the list of candidate arms. -/
abbrev Policy := ℕ → StateData → List ℕ

/-- Per-player candidate lists,
`all_decisions = [player(j, self) for j, player in enumerate(self.players)]`. -/
def allDecisions (players : List Policy) (s : StateData) : List (List ℕ) :=
  players.enum.map (fun jp => jp.2 jp.1 s)

/-- Embedding of the `all_deltas` generator combined with the application
`delta(self.copy())` performed by `compute_one_depth`: the list of all
(child state, transition probability) pairs produced from state `s`, in
generator order.  The probability of a transition is the probability of its
coin flip divided by `number_of_decisions`, the product of the sizes of the
candidate lists. -/
def allTransitions {α : Type} [Field α] (M K : ℕ) (mus : List α)
    (players : List Policy) (s : StateData) : List (StateData × α) :=
  let decs := allDecisions players s
  let nod := (decs.map List.length).prod
  (cartesianProduct decs).flatMap (fun decisions =>
    (coinProfiles K).map (fun cf =>
      (applyDelta M K decisions cf s.copy, probaOfCoinFlip mus cf / (nod : α))))

/-- Dictionary update for the deduplication maps `uniq_children` /
`uniq_probas` of `compute_one_depth`: if the key is already present, add the
probability to the stored one; otherwise append the new entry at the end
(Python dictionaries preserve insertion order). -/
def dedupIns {α : Type} [Add α] :
    List (StateData × α) → StateData → α → List (StateData × α)
  | [], c, p => [(c, p)]
  | e :: rest, c, p =>
    if e.1 = c then (e.1, e.2 + p) :: rest else e :: dedupIns rest c p

/-- Deduplication of a list of (state, probability) pairs by structural state
equality, summing the probabilities of merged entries, exactly as the
hash-keyed dictionaries of `compute_one_depth` / `get_unique_leafs` do. -/
def dedupSum {α : Type} [Add α] (l : List (StateData × α)) : List (StateData × α) :=
  l.foldl (fun acc cp => dedupIns acc cp.1 cp.2) []

/-- Embedding of `State.compute_one_depth`: increment the depth, then collect
all transitions and deduplicate them.  The first component is the updated
node (the mutated `self`), the second the deduplicated `children`/`probas`
association. -/
def computeOneDepth {α : Type} [Field α] (M K : ℕ) (mus : List α)
    (players : List Policy) (s : StateData) : StateData × List (StateData × α) :=
  let s1 : StateData := { s with depth := s.depth + 1 }
  (s1, dedupSum (allTransitions M K mus players s1))

-- Sanity checks of the transition function on concrete inputs.
example :
    applyDelta 1 1 [0] [true] (StateData.make [[0]] [[0]] [[0]] [[0]] 1) =
      { S := [[1]], Stilde := [[1]], N := [[1]], Ntilde := [[1]], t := 1, depth := 0 } := by
  decide

example :
    applyDelta 2 2 [0, 0] [true, false] (StateData.make [[0,0],[0,0]] [[0,0],[0,0]] [[0,0],[0,0]] [[0,0],[0,0]] 0) =
      { S := [[1,0],[0,0]], Stilde := [[0,0],[0,0]], N := [[1,0],[1,0]],
        Ntilde := [[0,0],[1,0]], t := 1, depth := -1 } := by
  decide

/-- Exploration tree: the `children` / `probas` lists owned by every explored
`State`, made explicit.  Each child carries its transition probability. -/
inductive ETree (α : Type) : Type where
  | mk (data : StateData) (children : List (α × ETree α))

/-- Statistics / time / depth data of the node. -/
def ETree.data {α : Type} : ETree α → StateData
  | .mk d _ => d

/-- Children list of the node. -/
def ETree.children {α : Type} : ETree α → List (α × ETree α)
  | .mk _ cs => cs

/-- Embedding of `State.explore_from_node_to_depth`: at depth 0 return at
once; otherwise run `compute_one_depth`, overwrite `self.depth` with the
requested depth, and recurse into every deduplicated child with depth one
less (the recursion at depth 1 is a no-op, matching the `depth > 1` guard of
the source). -/
def explore {α : Type} [Field α] (M K : ℕ) (mus : List α) (players : List Policy) :
    StateData → ℕ → ETree α
  | s, 0 => .mk s []
  | s, d + 1 =>
    let r := computeOneDepth M K mus players s
    .mk { r.1 with depth := ((d : ℤ) + 1) }
      (r.2.map (fun cp => (cp.2, explore M K mus players cp.1 d)))

/-- Embedding of `State.get_all_leafs`: states of depth at most 1 hand back
their direct children with their probabilities; deeper states recurse and
multiply the child probability into every returned path probability. -/
def getAllLeafs {α : Type} [Mul α] : ETree α → List (StateData × α)
  | .mk s cs =>
    if s.depth ≤ 1 then cs.map (fun c => (c.2.data, c.1))
    else cs.attach.flatMap
      (fun c => (getAllLeafs c.1.2).map (fun lp => (lp.1, c.1.1 * lp.2)))
decreasing_by
  obtain ⟨⟨p, tr⟩, hm⟩ := c
  have h1 := List.sizeOf_lt_of_mem hm
  simp only [Prod.mk.sizeOf_spec] at h1
  simp only [ETree.mk.sizeOf_spec]
  omega

/-- Embedding of `State.get_unique_leafs`: gather all leaves and merge the
identical ones, summing their path probabilities. -/
def getUniqueLeafs {α : Type} [Mul α] [Add α] (tr : ETree α) : List (StateData × α) :=
  dedupSum (getAllLeafs tr)

/-- All nodes of an exploration tree, as (distance from the root, number of
children, node data) triples. -/
def treeNodes {α : Type} : ETree α → List (ℕ × ℕ × StateData)
  | .mk s cs =>
    (0, cs.length, s) ::
      cs.attach.flatMap (fun c => (treeNodes c.1.2).map (fun p => (p.1 + 1, p.2.1, p.2.2)))
decreasing_by
  obtain ⟨⟨p, tr⟩, hm⟩ := c
  have h1 := List.sizeOf_lt_of_mem hm
  simp only [Prod.mk.sizeOf_spec] at h1
  simp only [ETree.mk.sizeOf_spec]
  omega

/-- All parent/child pairs of an exploration tree. -/
def treeEdges {α : Type} : ETree α → List (StateData × StateData)
  | .mk s cs =>
    cs.map (fun c => (s, c.2.data)) ++ cs.attach.flatMap (fun c => treeEdges c.1.2)
decreasing_by
  obtain ⟨⟨p, tr⟩, hm⟩ := c
  have h1 := List.sizeOf_lt_of_mem hm
  simp only [Prod.mk.sizeOf_spec] at h1
  simp only [ETree.mk.sizeOf_spec]
  omega

/-- Embedding of `choices_from_indexes`:
`np.where(indexes == np.max(indexes))[0]`, the ascending list of positions
attaining the maximal index (empty input gives the empty list, where numpy
would raise). -/
def choices_from_indexes {β : Type} [LinearOrder β] (indexes : List β) : List ℕ :=
  match indexes with
  | [] => []
  | x :: xs =>
    let m := xs.foldl max x
    (List.range (x :: xs).length).filter (fun i => (x :: xs).getD i x = m)

/-- Embedding of `FixedArm`: fake player `j` always targets arm `j`. -/
def FixedArm : Policy := fun j _ => [j]

/-- Embedding of `UniformExploration`: fake player targeting all arms,
`np.arange(state.K)`. -/
def UniformExploration : Policy := fun _ s => List.range s.Kdim

/-- Index vector shared by the three Selfish 0-greedy variants: `num[k] /
N[j][k]` as a rational, with every arm of `N[j][k] < 1` forced to `+oo`
(`indexes[state.N[j] < 1] = +oo`). -/
def greedyIndexes (num : List ℕ) (Nj : List ℕ) : List (WithTop ℚ) :=
  (List.range Nj.length).map (fun k =>
    if Nj.getD k 0 < 1 then (⊤ : WithTop ℚ)
    else (((num.getD k 0 : ℚ) / (Nj.getD k 0 : ℚ) : ℚ) : WithTop ℚ))

/-- Embedding of `Selfish_0Greedy_U`: index `S[j] / N[j]` with unexplored
arms forced to `+oo`, then all positions attaining the maximum. -/
def Selfish_0Greedy_U : Policy := fun j s =>
  choices_from_indexes (greedyIndexes (s.S.getD j []) (s.N.getD j []))

/-- Embedding of `Selfish_0Greedy_Utilde`: index `Stilde[j] / N[j]`. -/
def Selfish_0Greedy_Utilde : Policy := fun j s =>
  choices_from_indexes (greedyIndexes (s.Stilde.getD j []) (s.N.getD j []))

/-- Index vector of `Selfish_0Greedy_Ubar`:
`(Ntilde[j] / N[j]) * (S[j] / N[j])` with unexplored arms forced to `+oo`. -/
def ubarIndexes (s : StateData) (j : ℕ) : List (WithTop ℚ) :=
  let Nj := s.N.getD j []
  let Sj := s.S.getD j []
  let Ntj := s.Ntilde.getD j []
  (List.range Nj.length).map (fun k =>
    if Nj.getD k 0 < 1 then (⊤ : WithTop ℚ)
    else ((((Ntj.getD k 0 : ℚ) / (Nj.getD k 0 : ℚ)) * ((Sj.getD k 0 : ℚ) / (Nj.getD k 0 : ℚ)) : ℚ) : WithTop ℚ))

/-- Embedding of `Selfish_0Greedy_Ubar` (the module's `default_policy`). -/
def Selfish_0Greedy_Ubar : Policy := fun j s =>
  choices_from_indexes (ubarIndexes s j)

/-- The module-level `default_policy = Selfish_0Greedy_Ubar`. -/
def default_policy : Policy := Selfish_0Greedy_Ubar

/-- The expression `state[j]` appearing in `Selfish_UCB_U`: the `State` class
defines no `__getitem__`, so subscripting a state object raises `TypeError`
for every index; the failure is embedded as `none`. -/
def stateGetitem (_s : StateData) (_j : ℕ) : Option StateData := none

/-- Embedding of `Selfish_UCB_U` (source line 86): its index vector starts
from `state[j].S`, and evaluating `state[j]` fails (see `stateGetitem`), so
the call fails before any index arithmetic can happen.  The continuation
after the subscript is unreachable and therefore not modelled further. -/
def Selfish_UCB_U (j : ℕ) (s : StateData) : Option (List ℕ) :=
  (stateGetitem s j).map (fun _ => [])

/-- Embedding of `State.is_absorbing`: false when some entry of `N` is below
1; otherwise scan all pairs `j1 < j2` of players and return true at the first
pair whose rows in all four matrices coincide and whose shared `S` row has
`K` pairwise-distinct values (`len(set(bad_line)) == self.K`). -/
def StateData.is_absorbing (s : StateData) : Bool :=
  if matMin s.N < 1 then false
  else (List.range s.Mdim).any (fun j1 =>
    ((List.range s.Mdim).filter (fun j2 => j1 < j2)).any (fun j2 =>
      if (s.S.getD j1 [] = s.S.getD j2 []) ∧ (s.Stilde.getD j1 [] = s.Stilde.getD j2 [])
          ∧ (s.N.getD j1 [] = s.N.getD j2 []) ∧ (s.Ntilde.getD j1 [] = s.Ntilde.getD j2 [])
      then decide ((s.S.getD j1 []).dedup.length = s.Kdim)
      else false))

/-- The all-zero `M × K` matrix, `np.zeros((M, K))`. -/
def zerosMat (M K : ℕ) : Mat := List.replicate M (List.replicate K 0)

/-- Embedding of the driver `main` after its default-filling phase: the
player list and the mean vector are explicit arguments (the source fills
them with `default_policy` copies and symbolic means when absent), the four
statistics matrices are optional and default to zeros, and finally
`M = len(players)`, `K = len(mus)`.  The two `assert` statements become
`Except.error`; only when both pass is the root `State` constructed (with
`depth = 0`) and explored, and the unique leaves collected. -/
def mainDriver {α : Type} [Field α] (depth : ℤ) (players : List Policy) (mus : List α)
    (Sopt Stildeopt Nopt Ntildeopt : Option Mat) :
    Except String (ETree α × List (StateData × α)) :=
  let K := mus.length
  let M := players.length
  if ¬(1 ≤ M ∧ M ≤ K ∧ K ≤ 10) then
    .error "Error: only 1 <= M <= K <= 10 are supported"
  else if ¬(0 ≤ depth ∧ depth ≤ 5) then
    .error "Error: only 0 <= depth <= 5 is supported"
  else
    let S := Sopt.getD (zerosMat M K)
    let Stilde := Stildeopt.getD (zerosMat M K)
    let N := Nopt.getD (zerosMat M K)
    let Ntilde := Ntildeopt.getD (zerosMat M K)
    let root := StateData.make S Stilde N Ntilde 0
    let tree := explore M K mus players root depth.toNat
    .ok (tree, getUniqueLeafs tree)

/-- Lookup of the probability stored for state `c` in an association list
(first match), used to state properties of the deduplication maps. -/
def probOf {α : Type} : List (StateData × α) → StateData → Option α
  | [], _ => none
  | e :: rest, c => if e.1 = c then some e.2 else probOf rest c

/-- Total probability mass that a list of transitions assigns to the state
`c`: the sum of the probabilities of all its occurrences. -/
def valueSum {α : Type} [AddCommMonoid α] (l : List (StateData × α)) (c : StateData) : α :=
  ((l.filter (fun e => decide (e.1 = c))).map Prod.snd).sum

theorem dedupIns_sum {α : Type} [AddCommMonoid α] (acc : List (StateData × α))
    (c : StateData) (p : α) :
    ((dedupIns acc c p).map Prod.snd).sum = (acc.map Prod.snd).sum + p := by
  induction acc with
  | nil => simp [dedupIns]
  | cons e rest ih =>
    by_cases h : e.1 = c
    · simp [dedupIns, h, add_right_comm]
    · simp [dedupIns, h, ih, add_assoc]

theorem dedup_go_sum {α : Type} [AddCommMonoid α] (l acc : List (StateData × α)) :
    ((l.foldl (fun a cp => dedupIns a cp.1 cp.2) acc).map Prod.snd).sum
      = (acc.map Prod.snd).sum + (l.map Prod.snd).sum := by
  induction l generalizing acc with
  | nil => simp
  | cons x xs ih => simp [List.foldl_cons, ih, dedupIns_sum, add_assoc]

theorem dedupSum_sum {α : Type} [AddCommMonoid α] (l : List (StateData × α)) :
    ((dedupSum l).map Prod.snd).sum = (l.map Prod.snd).sum := by
  simpa [dedupSum] using dedup_go_sum l []

theorem probOf_dedupIns_self {α : Type} [AddCommMonoid α]
    (acc : List (StateData × α)) (c : StateData) (p : α) :
    probOf (dedupIns acc c p) c = some ((probOf acc c).elim p (fun q => q + p)) := by
  induction acc with
  | nil => simp [dedupIns, probOf]
  | cons e rest ih =>
    by_cases h : e.1 = c
    · simp [dedupIns, h, probOf]
    · simp [dedupIns, h, probOf, ih]

theorem probOf_dedupIns_ne {α : Type} [AddCommMonoid α]
    (acc : List (StateData × α)) (c c' : StateData) (p : α) (hne : c' ≠ c) :
    probOf (dedupIns acc c p) c' = probOf acc c' := by
  have hne' : ¬ c = c' := fun h => hne h.symm
  induction acc with
  | nil => simp [dedupIns, probOf, hne']
  | cons e rest ih =>
    by_cases h : e.1 = c
    · subst h
      simp [dedupIns, probOf, hne']
    · by_cases h2 : e.1 = c'
      · simp [dedupIns, h, probOf, h2, hne]
      · simp [dedupIns, h, probOf, h2, ih]

theorem probOf_dedup_go {α : Type} [AddCommMonoid α] (l acc : List (StateData × α))
    (c : StateData) :
    probOf (l.foldl (fun a cp => dedupIns a cp.1 cp.2) acc) c
      = (probOf acc c).elim
          (if c ∈ l.map Prod.fst then some (valueSum l c) else none)
          (fun q => some (q + valueSum l c)) := by
  induction l generalizing acc with
  | nil =>
    cases h : probOf acc c <;> simp [h, valueSum]
  | cons x xs ih =>
    rw [List.foldl_cons, ih]
    by_cases hx : c = x.1
    · subst hx
      rw [probOf_dedupIns_self]
      have hval : valueSum (x :: xs) x.1 = x.2 + valueSum xs x.1 := by
        simp [valueSum]
      cases h : probOf acc x.1 <;>
        simp [h, hval, add_assoc]
    · rw [probOf_dedupIns_ne _ _ _ _ hx]
      have hx' : ¬ x.1 = c := fun h => hx h.symm
      have hval : valueSum (x :: xs) c = valueSum xs c := by
        simp [valueSum, hx']
      have hmem : (c ∈ x.1 :: xs.map Prod.fst) ↔ (c ∈ xs.map Prod.fst) := by
        simp [hx]
      cases h : probOf acc c
      · simp only [h, Option.elim, List.map_cons]
        rw [hval]
        exact (if_congr hmem rfl rfl).symm
      · simp [h, hval]

theorem probOf_dedupSum {α : Type} [AddCommMonoid α] (l : List (StateData × α))
    (c : StateData) :
    probOf (dedupSum l) c
      = if c ∈ l.map Prod.fst then some (valueSum l c) else none := by
  simpa [dedupSum, probOf] using probOf_dedup_go l [] c

theorem dedupIns_keys {α : Type} [AddCommMonoid α] (acc : List (StateData × α))
    (c : StateData) (p : α) :
    (dedupIns acc c p).map Prod.fst
      = if c ∈ acc.map Prod.fst then acc.map Prod.fst else acc.map Prod.fst ++ [c] := by
  induction acc with
  | nil => simp [dedupIns]
  | cons e rest ih =>
    by_cases h : e.1 = c
    · simp [dedupIns, h]
    · have h' : ¬ c = e.1 := fun hh => h hh.symm
      by_cases h2 : c ∈ rest.map Prod.fst <;>
        simp [dedupIns, h, ih, h', h2, List.mem_cons]

theorem dedupIns_length {α : Type} [AddCommMonoid α] (acc : List (StateData × α))
    (c : StateData) (p : α) :
    (dedupIns acc c p).length
      = if c ∈ acc.map Prod.fst then acc.length else acc.length + 1 := by
  induction acc with
  | nil => simp [dedupIns]
  | cons e rest ih =>
    by_cases h : e.1 = c
    · simp [dedupIns, h]
    · have h' : ¬ c = e.1 := fun hh => h hh.symm
      by_cases h2 : c ∈ rest.map Prod.fst <;>
        simp [dedupIns, h, ih, h', h2, List.mem_cons]

theorem dedup_go_length {α : Type} [AddCommMonoid α] (l acc : List (StateData × α))
    (hacc : (acc.map Prod.fst).Nodup) :
    (l.foldl (fun a cp => dedupIns a cp.1 cp.2) acc).length ≤ acc.length + l.length ∧
    ((l.foldl (fun a cp => dedupIns a cp.1 cp.2) acc).length = acc.length + l.length ↔
      (acc.map Prod.fst ++ l.map Prod.fst).Nodup) := by
  induction l generalizing acc with
  | nil => simp [hacc]
  | cons x xs ih =>
    rw [List.foldl_cons]
    simp only [List.length_cons, List.map_cons]
    by_cases hx : x.1 ∈ acc.map Prod.fst
    · have hkeys : (dedupIns acc x.1 x.2).map Prod.fst = acc.map Prod.fst := by
        rw [dedupIns_keys]; simp [hx]
      have hlen : (dedupIns acc x.1 x.2).length = acc.length := by
        rw [dedupIns_length]; simp [hx]
      obtain ⟨ihle, ihiff⟩ := ih (dedupIns acc x.1 x.2) (hkeys ▸ hacc)
      rw [hlen] at ihle
      rw [hkeys, hlen] at ihiff
      refine ⟨by omega, ?_, ?_⟩
      · intro h
        omega
      · intro h
        exfalso
        rcases List.nodup_append.mp h with ⟨-, -, hdis⟩
        exact hdis hx (by simp)
    · have hkeys : (dedupIns acc x.1 x.2).map Prod.fst = acc.map Prod.fst ++ [x.1] := by
        rw [dedupIns_keys]; simp [hx]
      have hlen : (dedupIns acc x.1 x.2).length = acc.length + 1 := by
        rw [dedupIns_length]; simp [hx]
      have hacc2 : ((dedupIns acc x.1 x.2).map Prod.fst).Nodup := by
        rw [hkeys]
        simp [List.nodup_append, hacc, hx]
      obtain ⟨ihle, ihiff⟩ := ih (dedupIns acc x.1 x.2) hacc2
      rw [hlen] at ihle
      rw [hkeys, hlen] at ihiff
      have hperm : (acc.map Prod.fst ++ [x.1] ++ xs.map Prod.fst).Nodup ↔
          (acc.map Prod.fst ++ x.1 :: xs.map Prod.fst).Nodup := by
        rw [List.append_assoc]
        simp [List.nodup_append]
      refine ⟨by omega, ?_, ?_⟩
      · intro h
        exact hperm.mp (ihiff.mp (by omega))
      · intro h
        have := ihiff.mpr (hperm.mpr h)
        omega

theorem dedupSum_length_le {α : Type} [AddCommMonoid α] (l : List (StateData × α)) :
    (dedupSum l).length ≤ l.length := by
  have := (dedup_go_length l [] (by simp)).1
  simpa [dedupSum] using this

theorem dedupSum_length_iff {α : Type} [AddCommMonoid α] (l : List (StateData × α)) :
    (dedupSum l).length = l.length ↔ (l.map Prod.fst).Nodup := by
  have := (dedup_go_length l [] (by simp)).2
  simpa [dedupSum] using this

/-- C3: after one `compute_one_depth`, the number of distinct children never
exceeds the number of generated (decision profile × outcome profile)
transition pairs; it equals that number exactly when no two generated
transitions coincide on the resulting statistics; and a state is stored as a
child iff some generated transition produces it, with stored probability the
sum of the probabilities of all transitions producing exactly that state —
i.e. children are merged precisely by equality of the four statistics
matrices together with `t` and `depth` (`StateData` equality). -/
theorem C3_dedup_correctness {α : Type} [Field α] (M K : ℕ) (mus : List α)
    (players : List Policy) (s : StateData) :
    (computeOneDepth M K mus players s).2.length
        ≤ (allTransitions M K mus players { s with depth := s.depth + 1 }).length ∧
    ((computeOneDepth M K mus players s).2.length
        = (allTransitions M K mus players { s with depth := s.depth + 1 }).length ↔
      ((allTransitions M K mus players { s with depth := s.depth + 1 }).map Prod.fst).Nodup) ∧
    (∀ c : StateData,
      probOf (computeOneDepth M K mus players s).2 c
        = if c ∈ (allTransitions M K mus players { s with depth := s.depth + 1 }).map Prod.fst
          then some (valueSum (allTransitions M K mus players { s with depth := s.depth + 1 }) c)
          else none) := by
  have hch : (computeOneDepth M K mus players s).2
      = dedupSum (allTransitions M K mus players { s with depth := s.depth + 1 }) := rfl
  rw [hch]
  exact ⟨dedupSum_length_le _, dedupSum_length_iff _, fun c => probOf_dedupSum _ c⟩

theorem probaOfCoinFlip_cons {α : Type} [Field α] (m : α) (mus : List α) (b : Bool)
    (cf : List Bool) :
    probaOfCoinFlip (m :: mus) (b :: cf)
      = (if b then m else 1 - m) * probaOfCoinFlip mus cf := by
  simp [probaOfCoinFlip]

theorem coinProfiles_sum {α : Type} [Field α] (K : ℕ) (mus : List α)
    (hK : K ≤ mus.length) :
    ((coinProfiles K).map (probaOfCoinFlip mus)).sum = 1 := by
  induction K generalizing mus with
  | zero => simp [coinProfiles, probaOfCoinFlip]
  | succ k ih =>
    cases mus with
    | nil => simp at hK
    | cons m rest =>
      have hk : k ≤ rest.length := by simpa using hK
      simp only [coinProfiles, List.flatMap_cons, List.flatMap_nil, List.append_nil,
        List.map_append, List.map_map, List.sum_append]
      have hf1 : (probaOfCoinFlip (m :: rest) ∘ (fun rest2 : List Bool => false :: rest2))
          = fun cf => (1 - m) * probaOfCoinFlip rest cf := by
        funext cf
        simp [probaOfCoinFlip_cons]
      have hf2 : (probaOfCoinFlip (m :: rest) ∘ (fun rest2 : List Bool => true :: rest2))
          = fun cf => m * probaOfCoinFlip rest cf := by
        funext cf
        simp [probaOfCoinFlip_cons]
      rw [hf1, hf2, List.sum_map_mul_left, List.sum_map_mul_left, ih rest hk]
      ring

theorem cartesianProduct_length {γ : Type _} (ls : List (List γ)) :
    (cartesianProduct ls).length = (ls.map List.length).prod := by
  induction ls with
  | nil => simp [cartesianProduct]
  | cons l ls ih =>
    simp only [cartesianProduct, List.length_flatMap, List.map_cons, List.prod_cons]
    have hfun : (List.length ∘ fun x : γ => (cartesianProduct ls).map (fun rest => x :: rest))
        = fun _ : γ => (ls.map List.length).prod := by
      funext x
      simp [ih]
    rw [hfun, List.map_const', List.sum_replicate, smul_eq_mul, Nat.mul_comm]

theorem sum_map_flatMap {γ δ α : Type _} [AddCommMonoid α] (l : List γ)
    (f : γ → List δ) (g : δ → α) :
    ((l.flatMap f).map g).sum = (l.map (fun x => ((f x).map g).sum)).sum := by
  induction l with
  | nil => simp
  | cons x xs ih => simp [List.flatMap_cons, ih]

theorem sum_map_div {γ α : Type _} [DivisionRing α] (l : List γ) (f : γ → α) (c : α) :
    (l.map (fun x => f x / c)).sum = (l.map f).sum / c := by
  induction l with
  | nil => simp
  | cons x xs ih => simp [ih, add_div]

theorem allTransitions_sum {α : Type} [Field α] [CharZero α] (M K : ℕ)
    (mus : List α) (players : List Policy) (s : StateData)
    (hK : K ≤ mus.length)
    (hne : ∀ dl ∈ allDecisions players s, dl ≠ []) :
    ((allTransitions M K mus players s).map Prod.snd).sum = 1 := by
  have hnodpos : 0 < ((allDecisions players s).map List.length).prod := by
    apply List.prod_pos
    intro x hx
    obtain ⟨dl, hdl, rfl⟩ := List.mem_map.mp hx
    exact List.length_pos.mpr (hne dl hdl)
  have hcast : (((allDecisions players s).map List.length).prod : α) ≠ 0 :=
    Nat.cast_ne_zero.mpr hnodpos.ne'
  unfold allTransitions
  rw [sum_map_flatMap]
  have hinner : ∀ decisions : List ℕ,
      (((coinProfiles K).map (fun cf =>
        (applyDelta M K decisions cf s.copy,
         probaOfCoinFlip mus cf / (((allDecisions players s).map List.length).prod : α)))).map
            Prod.snd).sum
        = 1 / (((allDecisions players s).map List.length).prod : α) := by
    intro decisions
    rw [List.map_map]
    have : (Prod.snd ∘ fun cf : List Bool =>
        (applyDelta M K decisions cf s.copy,
         probaOfCoinFlip mus cf / (((allDecisions players s).map List.length).prod : α)))
        = fun cf => probaOfCoinFlip mus cf / (((allDecisions players s).map List.length).prod : α) := rfl
    rw [this, sum_map_div]
    rw [show ((coinProfiles K).map (fun cf => probaOfCoinFlip mus cf))
          = (coinProfiles K).map (probaOfCoinFlip mus) from rfl]
    rw [coinProfiles_sum K mus hK]
  simp only [hinner]
  rw [List.map_const', List.sum_replicate, cartesianProduct_length, nsmul_eq_mul,
    mul_one_div, div_self hcast]

theorem computeOneDepth_sum {α : Type} [Field α] [CharZero α] (M K : ℕ)
    (mus : List α) (players : List Policy) (s : StateData)
    (hK : K ≤ mus.length)
    (hne : ∀ st : StateData, ∀ dl ∈ allDecisions players st, dl ≠ []) :
    (((computeOneDepth M K mus players s).2).map Prod.snd).sum = 1 := by
  have hch : (computeOneDepth M K mus players s).2
      = dedupSum (allTransitions M K mus players { s with depth := s.depth + 1 }) := rfl
  rw [hch, dedupSum_sum]
  exact allTransitions_sum M K mus players _ hK (hne _)

theorem attach_flatMap {γ δ : Type _} (l : List γ) (g : γ → List δ) :
    l.attach.flatMap (fun c => g c.1) = l.flatMap g := by
  simp

theorem getAllLeafs_shallow {α : Type} [Mul α] (nd : StateData)
    (cs : List (α × ETree α)) (h : nd.depth ≤ 1) :
    getAllLeafs (ETree.mk nd cs) = cs.map (fun c => (c.2.data, c.1)) := by
  simp only [getAllLeafs]
  simp [h]

theorem getAllLeafs_deep {α : Type} [Mul α] (nd : StateData)
    (cs : List (α × ETree α)) (h : ¬ nd.depth ≤ 1) :
    getAllLeafs (ETree.mk nd cs)
      = cs.flatMap (fun c => (getAllLeafs c.2).map (fun lp => (lp.1, c.1 * lp.2))) := by
  simp only [getAllLeafs]
  rw [if_neg h]
  exact attach_flatMap cs (fun x => (getAllLeafs x.2).map (fun lp => (lp.1, x.1 * lp.2)))

theorem explore_succ_eq {α : Type} [Field α] (M K : ℕ) (mus : List α)
    (players : List Policy) (s : StateData) (n : ℕ) :
    explore M K mus players s (n + 1)
      = ETree.mk { s with depth := ((n : ℤ) + 1) }
          ((computeOneDepth M K mus players s).2.map
            (fun cp => (cp.2, explore M K mus players cp.1 n))) := rfl

theorem leafSum_explore {α : Type} [Field α] [CharZero α] (M K : ℕ)
    (mus : List α) (players : List Policy)
    (hK : K ≤ mus.length)
    (hne : ∀ st : StateData, ∀ dl ∈ allDecisions players st, dl ≠ []) :
    ∀ d : ℕ, 1 ≤ d → ∀ s : StateData,
      ((getAllLeafs (explore M K mus players s d)).map Prod.snd).sum = 1 := by
  intro d
  induction d with
  | zero => intro h; omega
  | succ n ih =>
    intro _ s
    rw [explore_succ_eq]
    by_cases hn : n = 0
    · subst hn
      rw [getAllLeafs_shallow _ _ (by norm_num)]
      rw [List.map_map, List.map_map]
      have hfun : ((Prod.snd ∘ fun c : α × ETree α => (c.2.data, c.1)) ∘
            fun cp : StateData × α => (cp.2, explore M K mus players cp.1 0))
          = Prod.snd := rfl
      rw [hfun]
      exact computeOneDepth_sum M K mus players s hK hne
    · have hn1 : 1 ≤ n := Nat.one_le_iff_ne_zero.mpr hn
      rw [getAllLeafs_deep _ _ (by simp; omega)]
      rw [List.flatMap_map, sum_map_flatMap]
      have hinner : ∀ cp : StateData × α,
          (((getAllLeafs (explore M K mus players cp.1 n)).map
              (fun lp => (lp.1, cp.2 * lp.2))).map Prod.snd).sum = cp.2 := by
        intro cp
        rw [List.map_map]
        have hcomp : (Prod.snd ∘ fun lp : StateData × α => (lp.1, cp.2 * lp.2))
            = fun lp : StateData × α => cp.2 * lp.2 := rfl
        rw [hcomp]
        have hmul := List.sum_map_mul_left
          (getAllLeafs (explore M K mus players cp.1 n)) Prod.snd cp.2
        rw [hmul, ih hn1 cp.1, mul_one]
      simp only [hinner]
      exact computeOneDepth_sum M K mus players s hK hne

/-- C1, counterexample: at depth d = 0, `explore_from_node_to_depth` returns
without expanding anything, so `get_unique_leafs` returns empty lists and the
leaf probabilities sum to 0, not 1 — the claim fails for d = 0 (it is stated
for every d ≥ 0). -/
theorem C1_counterexample_depth_zero :
    ((getUniqueLeafs (explore 1 1 [(1/2 : ℚ)] [default_policy]
        (StateData.make [[0]] [[0]] [[0]] [[0]] 0) 0)).map Prod.snd).sum ≠ 1 := by
  have h1 : explore (α := ℚ) 1 1 [1/2] [default_policy]
      (StateData.make [[0]] [[0]] [[0]] [[0]] 0) 0
      = ETree.mk (StateData.make [[0]] [[0]] [[0]] [[0]] 0) [] := rfl
  rw [h1, getUniqueLeafs, getAllLeafs_shallow _ _ (by simp [StateData.make])]
  simp [dedupSum]

/-- C1 (amended): for every root state and every depth d ≥ 1, the
probabilities returned by `get_unique_leafs` after
`explore_from_node_to_depth(d)` sum exactly to 1, and at every expanded node
the `probas` list produced by `compute_one_depth` sums to 1.  Hypotheses:
every decision function returns a nonempty candidate list (the policy
contract) and the mean vector covers the K arms; the field of probabilities
has characteristic zero (rational, real, or symbolic rational functions). -/
theorem C1_probability_conservation {α : Type} [Field α] [CharZero α]
    (M K : ℕ) (mus : List α) (players : List Policy)
    (hK : K ≤ mus.length)
    (hne : ∀ st : StateData, ∀ dl ∈ allDecisions players st, dl ≠ [])
    (s : StateData) (d : ℕ) (hd : 1 ≤ d) :
    ((getUniqueLeafs (explore M K mus players s d)).map Prod.snd).sum = 1 ∧
    ∀ st : StateData,
      (((computeOneDepth M K mus players st).2).map Prod.snd).sum = 1 := by
  constructor
  · rw [getUniqueLeafs, dedupSum_sum]
    exact leafSum_explore M K mus players hK hne d hd s
  · intro st
    exact computeOneDepth_sum M K mus players st hK hne

/-- Witness for C1 (amended) at a concrete input: one player, one arm with
mean 1/2, the all-zero root, depth 1. -/
theorem C1_probability_conservation_witness :
    ((getUniqueLeafs (explore 1 1 [(1/2 : ℚ)] [FixedArm]
        (StateData.make [[0]] [[0]] [[0]] [[0]] 0) 1)).map Prod.snd).sum = 1 :=
  (C1_probability_conservation 1 1 [(1/2 : ℚ)] [FixedArm]
    (by norm_num)
    (fun st dl hdl => by
      simp [allDecisions, FixedArm] at hdl
      simp [hdl])
    (StateData.make [[0]] [[0]] [[0]] [[0]] 0) 1 (le_refl 1)).1

theorem treeNodes_mk {α : Type} (s : StateData) (cs : List (α × ETree α)) :
    treeNodes (ETree.mk s cs)
      = (0, cs.length, s) ::
          cs.flatMap (fun c => (treeNodes c.2).map (fun p => (p.1 + 1, p.2.1, p.2.2))) := by
  simp only [treeNodes]
  exact congrArg (List.cons _)
    (attach_flatMap cs (fun c => (treeNodes c.2).map (fun p => (p.1 + 1, p.2.1, p.2.2))))

theorem treeEdges_mk {α : Type} (s : StateData) (cs : List (α × ETree α)) :
    treeEdges (ETree.mk s cs)
      = cs.map (fun c => (s, c.2.data)) ++ cs.flatMap (fun c => treeEdges c.2) := by
  simp only [treeEdges]
  exact congrArg (List.append _) (attach_flatMap cs (fun c => treeEdges c.2))

theorem probOf_eq_none_iff {α : Type} (l : List (StateData × α)) (c : StateData) :
    probOf l c = none ↔ c ∉ l.map Prod.fst := by
  induction l with
  | nil => simp [probOf]
  | cons e rest ih =>
    by_cases h : e.1 = c
    · simp [probOf, h]
    · have h' : ¬ c = e.1 := fun hh => h hh.symm
      simp [probOf, h, ih, h']

theorem mem_fst_dedupSum {α : Type} [AddCommMonoid α] (l : List (StateData × α))
    (c : StateData) (h : c ∈ (dedupSum l).map Prod.fst) : c ∈ l.map Prod.fst := by
  by_contra hc
  have hnone : probOf (dedupSum l) c = none := by
    rw [probOf_dedupSum]
    simp [hc]
  exact (probOf_eq_none_iff _ _).mp hnone h

theorem dedupSum_ne_nil {α : Type} [AddCommMonoid α] (l : List (StateData × α))
    (h : l ≠ []) : dedupSum l ≠ [] := by
  cases l with
  | nil => exact absurd rfl h
  | cons x xs =>
    intro hempty
    have hmem : x.1 ∈ (x :: xs).map Prod.fst := by simp
    have := probOf_dedupSum (x :: xs) x.1
    rw [hempty] at this
    simp [probOf, hmem] at this

theorem deltaStep_depth (st : StateData) (q : (ℕ × ℕ) × Bool × Bool) :
    (deltaStep st q).depth = st.depth := by
  unfold deltaStep
  by_cases h : q.2.2 <;> simp [h]

theorem deltaStep_t (st : StateData) (q : (ℕ × ℕ) × Bool × Bool) :
    (deltaStep st q).t = st.t := by
  unfold deltaStep
  by_cases h : q.2.2 <;> simp [h]

theorem foldl_deltaStep_depth (ql : List ((ℕ × ℕ) × Bool × Bool)) (x : StateData) :
    (ql.foldl deltaStep x).depth = x.depth := by
  induction ql generalizing x with
  | nil => rfl
  | cons q qs ih => rw [List.foldl_cons, ih, deltaStep_depth]

theorem foldl_deltaStep_t (ql : List ((ℕ × ℕ) × Bool × Bool)) (x : StateData) :
    (ql.foldl deltaStep x).t = x.t := by
  induction ql generalizing x with
  | nil => rfl
  | cons q qs ih => rw [List.foldl_cons, ih, deltaStep_t]

theorem applyDelta_depth (M K : ℕ) (ds : List ℕ) (cf : List Bool) (s : StateData) :
    (applyDelta M K ds cf s).depth = s.depth - 1 := by
  unfold applyDelta
  rw [foldl_deltaStep_depth]
  rfl

theorem applyDelta_t (M K : ℕ) (ds : List ℕ) (cf : List Bool) (s : StateData) :
    (applyDelta M K ds cf s).t = s.t + 1 := by
  unfold applyDelta
  rw [foldl_deltaStep_t]
  rfl

theorem allTransitions_child_depth {α : Type} [Field α] (M K : ℕ) (mus : List α)
    (players : List Policy) (s : StateData) :
    ∀ cp ∈ allTransitions M K mus players s, cp.1.depth = s.depth - 1 := by
  intro cp hcp
  unfold allTransitions at hcp
  obtain ⟨ds, hds, hcp2⟩ := List.mem_flatMap.mp hcp
  obtain ⟨cf, hcf, rfl⟩ := List.mem_map.mp hcp2
  rw [applyDelta_depth]
  rfl

theorem computeOneDepth_child_depth {α : Type} [Field α] (M K : ℕ) (mus : List α)
    (players : List Policy) (s : StateData) :
    ∀ cp ∈ (computeOneDepth M K mus players s).2, cp.1.depth = s.depth := by
  intro cp hcp
  have hch : (computeOneDepth M K mus players s).2
      = dedupSum (allTransitions M K mus players { s with depth := s.depth + 1 }) := rfl
  rw [hch] at hcp
  have hmem : cp.1 ∈ (allTransitions M K mus players
      { s with depth := s.depth + 1 }).map Prod.fst :=
    mem_fst_dedupSum _ _ (List.mem_map.mpr ⟨cp, hcp, rfl⟩)
  obtain ⟨cq, hcq, heq⟩ := List.mem_map.mp hmem
  have := allTransitions_child_depth M K mus players _ cq hcq
  rw [heq] at this
  rw [this]
  simp

theorem coinProfiles_length (K : ℕ) : (coinProfiles K).length = 2 ^ K := by
  induction K with
  | zero => rfl
  | succ k ih =>
    simp [coinProfiles, List.length_flatMap, ih, pow_succ]
    ring

theorem allTransitions_ne_nil {α : Type} [Field α] (M K : ℕ) (mus : List α)
    (players : List Policy) (s : StateData)
    (hne : ∀ dl ∈ allDecisions players s, dl ≠ []) :
    allTransitions M K mus players s ≠ [] := by
  have h1 : cartesianProduct (allDecisions players s) ≠ [] := by
    intro hc
    have hl := cartesianProduct_length (allDecisions players s)
    rw [hc] at hl
    have hpos : 0 < ((allDecisions players s).map List.length).prod := by
      apply List.prod_pos
      intro x hx
      obtain ⟨dl, hdl, rfl⟩ := List.mem_map.mp hx
      exact List.length_pos.mpr (hne dl hdl)
    simp at hl
    omega
  have h2 : coinProfiles K ≠ [] := by
    intro hc
    have hl := coinProfiles_length K
    rw [hc] at hl
    have hpos : 0 < 2 ^ K := pow_pos (by norm_num) K
    simp at hl
    omega
  obtain ⟨ds, hds⟩ := List.exists_mem_of_ne_nil _ h1
  obtain ⟨cf, hcf⟩ := List.exists_mem_of_ne_nil _ h2
  apply List.ne_nil_of_mem (a := (applyDelta M K ds cf s.copy,
    probaOfCoinFlip mus cf / (((allDecisions players s).map List.length).prod : α)))
  unfold allTransitions
  exact List.mem_flatMap.mpr ⟨ds, hds, List.mem_map.mpr ⟨cf, hcf, rfl⟩⟩

theorem computeOneDepth_ne_nil {α : Type} [Field α] (M K : ℕ) (mus : List α)
    (players : List Policy) (s : StateData)
    (hne : ∀ st : StateData, ∀ dl ∈ allDecisions players st, dl ≠ []) :
    (computeOneDepth M K mus players s).2 ≠ [] :=
  dedupSum_ne_nil _ (allTransitions_ne_nil M K mus players _ (hne _))

theorem explore_data_depth {α : Type} [Field α] (M K : ℕ) (mus : List α)
    (players : List Policy) (s : StateData) (hs : s.depth = 0) (d : ℕ) :
    (explore M K mus players s d).data.depth = (d : ℤ) := by
  cases d with
  | zero => simpa [explore, ETree.data] using hs
  | succ n => simp [explore_succ_eq, ETree.data]

theorem explore_nodes_spec {α : Type} [Field α] (M K : ℕ) (mus : List α)
    (players : List Policy)
    (hne : ∀ st : StateData, ∀ dl ∈ allDecisions players st, dl ≠ []) :
    ∀ d : ℕ, ∀ s : StateData, s.depth = 0 →
      ∀ x ∈ treeNodes (explore M K mus players s d),
        x.2.2.depth = (d : ℤ) - (x.1 : ℤ) ∧ (x.2.1 = 0 → x.1 = d) := by
  intro d
  induction d with
  | zero =>
    intro s hs x hx
    rw [show explore M K mus players s 0 = ETree.mk s [] from rfl, treeNodes_mk] at hx
    simp at hx
    subst hx
    simp [hs]
  | succ n ih =>
    intro s hs x hx
    rw [explore_succ_eq, treeNodes_mk] at hx
    rcases List.mem_cons.mp hx with hx0 | hxr
    · subst hx0
      refine ⟨by simp, ?_⟩
      intro hlen0
      exfalso
      rw [List.length_map, List.length_eq_zero] at hlen0
      exact computeOneDepth_ne_nil M K mus players s hne hlen0
    · obtain ⟨c, hc, hp⟩ := List.mem_flatMap.mp hxr
      obtain ⟨cp, hcp, rfl⟩ := List.mem_map.mp hc
      obtain ⟨p, hpmem, rfl⟩ := List.mem_map.mp hp
      have hcd : cp.1.depth = 0 := by
        rw [computeOneDepth_child_depth M K mus players s cp hcp, hs]
      obtain ⟨ihd, ihl⟩ := ih cp.1 hcd p hpmem
      constructor
      · simp only [ihd]
        push_cast
        ring
      · intro h0
        simp only [] at h0
        rw [ihl h0]

theorem explore_edges_spec {α : Type} [Field α] (M K : ℕ) (mus : List α)
    (players : List Policy) :
    ∀ d : ℕ, ∀ s : StateData, s.depth = 0 →
      ∀ e ∈ treeEdges (explore M K mus players s d), e.2.depth = e.1.depth - 1 := by
  intro d
  induction d with
  | zero =>
    intro s hs e he
    rw [show explore M K mus players s 0 = ETree.mk s [] from rfl, treeEdges_mk] at he
    simp at he
  | succ n ih =>
    intro s hs e he
    rw [explore_succ_eq, treeEdges_mk] at he
    rcases List.mem_append.mp he with he1 | he2
    · obtain ⟨c, hc, rfl⟩ := List.mem_map.mp he1
      obtain ⟨cp, hcp, rfl⟩ := List.mem_map.mp hc
      have hcd : cp.1.depth = 0 := by
        rw [computeOneDepth_child_depth M K mus players s cp hcp, hs]
      simp only []
      rw [explore_data_depth M K mus players cp.1 hcd n]
      simp
    · obtain ⟨c, hc, hmem⟩ := List.mem_flatMap.mp he2
      obtain ⟨cp, hcp, rfl⟩ := List.mem_map.mp hc
      have hcd : cp.1.depth = 0 := by
        rw [computeOneDepth_child_depth M K mus players s cp hcp, hs]
      exact ih cp.1 hcd e hmem

/-- C6: after `explore_from_node_to_depth(d)` on a root state (construction
depth 0), every node's depth equals d minus its distance from the root, every
leaf (childless node) has depth 0, and every child's depth is its parent's
depth minus 1.  The leaf clause uses the policy contract (nonempty candidate
lists), which guarantees every expanded node has at least one child. -/
theorem C6_depth_bound {α : Type} [Field α] (M K : ℕ) (mus : List α)
    (players : List Policy)
    (hne : ∀ st : StateData, ∀ dl ∈ allDecisions players st, dl ≠ [])
    (s : StateData) (hs : s.depth = 0) (d : ℕ) :
    (∀ x ∈ treeNodes (explore M K mus players s d),
      x.2.2.depth = (d : ℤ) - (x.1 : ℤ)) ∧
    (∀ x ∈ treeNodes (explore M K mus players s d),
      x.2.1 = 0 → x.2.2.depth = 0) ∧
    (∀ e ∈ treeEdges (explore M K mus players s d),
      e.2.depth = e.1.depth - 1) := by
  refine ⟨fun x hx => (explore_nodes_spec M K mus players hne d s hs x hx).1,
    fun x hx h0 => ?_, explore_edges_spec M K mus players d s hs⟩
  obtain ⟨h1, h2⟩ := explore_nodes_spec M K mus players hne d s hs x hx
  rw [h1, h2 h0]
  ring

/-- Witness for C6 at a concrete input: one player (`FixedArm`), one arm,
all-zero root, depth 1. -/
theorem C6_depth_bound_witness :
    (∀ x ∈ treeNodes (explore 1 1 [(1/2 : ℚ)] [FixedArm]
        (StateData.make [[0]] [[0]] [[0]] [[0]] 0) 1),
      x.2.2.depth = ((1 : ℕ) : ℤ) - (x.1 : ℤ)) ∧
    (∀ x ∈ treeNodes (explore 1 1 [(1/2 : ℚ)] [FixedArm]
        (StateData.make [[0]] [[0]] [[0]] [[0]] 0) 1),
      x.2.1 = 0 → x.2.2.depth = 0) ∧
    (∀ e ∈ treeEdges (explore 1 1 [(1/2 : ℚ)] [FixedArm]
        (StateData.make [[0]] [[0]] [[0]] [[0]] 0) 1),
      e.2.depth = e.1.depth - 1) :=
  C6_depth_bound 1 1 [(1/2 : ℚ)] [FixedArm]
    (fun st dl hdl => by
      simp [allDecisions, FixedArm] at hdl
      simp [hdl])
    (StateData.make [[0]] [[0]] [[0]] [[0]] 0) rfl 1

/-- C10: `compute_one_depth` changes only the node's `depth` (incremented by
one) and its `children`/`probas` (returned as the second component): the four
statistics matrices and `t` of the expanded state are left unchanged, and the
shared `mus`/`players` data are plain parameters the function cannot
modify. -/
theorem C10_computeOneDepth_frame {α : Type} [Field α] (M K : ℕ) (mus : List α)
    (players : List Policy) (s : StateData) :
    (computeOneDepth M K mus players s).1.S = s.S ∧
    (computeOneDepth M K mus players s).1.Stilde = s.Stilde ∧
    (computeOneDepth M K mus players s).1.N = s.N ∧
    (computeOneDepth M K mus players s).1.Ntilde = s.Ntilde ∧
    (computeOneDepth M K mus players s).1.t = s.t ∧
    (computeOneDepth M K mus players s).1.depth = s.depth + 1 :=
  ⟨rfl, rfl, rfl, rfl, rfl, rfl⟩

/-- C9: whenever the (resolved) player count M = `len(players)`, arm count
K = `len(mus)` or the depth violate the supported bounds
`1 ≤ M ≤ K ≤ 10`, `0 ≤ depth ≤ 5`, the driver fails with an error before any
root state is constructed and before any exploration result is produced. -/
theorem C9_driver_bounds {α : Type} [Field α] (depth : ℤ) (players : List Policy)
    (mus : List α) (Sopt Stildeopt Nopt Ntildeopt : Option Mat)
    (hbad : ¬(1 ≤ players.length ∧ players.length ≤ mus.length ∧ mus.length ≤ 10)
          ∨ ¬(0 ≤ depth ∧ depth ≤ 5)) :
    ∃ msg : String,
      mainDriver depth players mus Sopt Stildeopt Nopt Ntildeopt
        = Except.error msg := by
  rcases hbad with h | h
  · exact ⟨"Error: only 1 <= M <= K <= 10 are supported",
      by simp [mainDriver, h]⟩
  · by_cases h1 : (1 ≤ players.length ∧ players.length ≤ mus.length ∧ mus.length ≤ 10)
    · exact ⟨"Error: only 0 <= depth <= 5 is supported",
        by simp [mainDriver, h1, h]⟩
    · exact ⟨"Error: only 1 <= M <= K <= 10 are supported",
        by simp [mainDriver, h1]⟩

/-- Witness for C9 at a concrete input: depth 6 is out of bounds, so the
driver rejects the call. -/
theorem C9_driver_bounds_witness :
    ∃ msg : String,
      mainDriver 6 [FixedArm] [(1/2 : ℚ)] none none none none
        = Except.error msg :=
  C9_driver_bounds 6 [FixedArm] [(1/2 : ℚ)] none none none none
    (Or.inr (by norm_num))

/-- C5: the decision-function variant `Selfish_UCB_U` is not a total function
into nonempty sets of arms: its index expression reads `state[j].S`, and
`State` supports no subscripting, so the call fails (raises `TypeError`) for
every input — here evaluated at player 0 and the all-zero 1×1 state. -/
theorem C5_SelfishUCBU_fails :
    Selfish_UCB_U 0 (StateData.make [[0]] [[0]] [[0]] [[0]] 0) = none := rfl

/-- C2: evaluation of the transition function at the failing input.  Both
players choose arm 0 (a collision on arm 0) and the coin flips are
`(1, 0)` for arms `(0, 1)`.  The claim requires `S[1,0] += 1` (outcome of the
chosen arm 0) and no `Stilde`/`Ntilde` update for either player (arm 0 was
chosen twice); but the code pairs player 1 with `coin_flips[1] = 0` and
`collisions[1] = false`, so `S[1,0]` gains 0 and `Ntilde[1,0]` gains 1. -/
theorem C2_delta_player_indexed :
    applyDelta 2 2 [0, 0] [true, false]
        (StateData.make [[0,0],[0,0]] [[0,0],[0,0]] [[0,0],[0,0]] [[0,0],[0,0]] 0)
      = { S := [[1,0],[0,0]], Stilde := [[0,0],[0,0]], N := [[1,0],[1,0]],
          Ntilde := [[0,0],[1,0]], t := 1, depth := -1 } := by
  decide

theorem getD_mem_of_lt {γ : Type _} (l : List γ) (n : ℕ) (d : γ) (h : n < l.length) :
    l.getD n d ∈ l := by
  induction l generalizing n with
  | nil => simp at h
  | cons x xs ih =>
    cases n with
    | zero => simp
    | succ n =>
      rw [List.getD_cons_succ]
      exact List.mem_cons_of_mem x (ih n (by simpa using h))

theorem updRow_length (r : List ℕ) (i v : ℕ) : (updRow r i v).length = r.length := by
  simp [updRow]

theorem updRow_sum (r : List ℕ) (i v : ℕ) (h : i < r.length) :
    (updRow r i v).sum = r.sum + v := by
  induction r generalizing i with
  | nil => simp at h
  | cons x xs ih =>
    cases i with
    | zero =>
      simp [updRow]
      omega
    | succ i =>
      have hx : i < xs.length := by simpa using h
      simp only [updRow, List.set_cons_succ, List.getD_cons_succ, List.sum_cons]
      have := ih i hx
      simp only [updRow] at this
      omega

theorem updMat_sum (m : Mat) (j i v : ℕ) (hj : j < m.length)
    (hi : i < (m.getD j []).length) :
    matSum (updMat m j i v) = matSum m + v := by
  induction m generalizing j with
  | nil => simp at hj
  | cons r rs ih =>
    cases j with
    | zero =>
      simp only [updMat, List.set_cons_zero, List.getD_cons_zero, matSum,
        List.map_cons, List.sum_cons]
      rw [updRow_sum r i v (by simpa using hi)]
      omega
    | succ j =>
      have hj' : j < rs.length := by simpa using hj
      have hi' : i < (rs.getD j []).length := by simpa using hi
      simp only [updMat, List.set_cons_succ, List.getD_cons_succ, matSum,
        List.map_cons, List.sum_cons]
      have := ih j hj' hi'
      simp only [updMat, matSum] at this
      omega

theorem updMat_shape (m : Mat) (M K j i v : ℕ) (h : hasShape m M K) (hj : j < M) :
    hasShape (updMat m j i v) M K := by
  obtain ⟨h1, h2⟩ := h
  refine ⟨by simp [updMat, h1], ?_⟩
  intro r hr
  rcases List.mem_or_eq_of_mem_set hr with hr' | rfl
  · exact h2 r hr'
  · rw [updRow_length]
    exact h2 _ (getD_mem_of_lt m j [] (by omega))

theorem deltaStep_N (st : StateData) (q : (ℕ × ℕ) × Bool × Bool) :
    (deltaStep st q).N = updMat st.N q.1.1 q.1.2 1 := by
  unfold deltaStep
  by_cases h : q.2.2 <;> simp [h]

theorem foldl_deltaStep_N_sum (ql : List ((ℕ × ℕ) × Bool × Bool)) (x : StateData)
    (M K : ℕ) (hx : hasShape x.N M K)
    (hql : ∀ q ∈ ql, q.1.1 < M ∧ q.1.2 < K) :
    matSum (ql.foldl deltaStep x).N = matSum x.N + ql.length := by
  induction ql generalizing x with
  | nil => simp
  | cons q qs ih =>
    obtain ⟨hq1, hq2⟩ := hql q (by simp)
    have hstep : matSum (deltaStep x q).N = matSum x.N + 1 := by
      rw [deltaStep_N]
      apply updMat_sum
      · rw [hx.1]
        exact hq1
      · have hrow := hx.2 _ (getD_mem_of_lt x.N q.1.1 [] (by rw [hx.1]; exact hq1))
        rw [hrow]
        exact hq2
    rw [List.foldl_cons]
    have hshape2 : hasShape (deltaStep x q).N M K := by
      rw [deltaStep_N]
      exact updMat_shape x.N M K q.1.1 q.1.2 1 hx hq1
    have := ih (deltaStep x q) hshape2 (fun q' hq' => hql q' (List.mem_cons_of_mem q hq'))
    rw [this, hstep]
    simp [List.length_cons]
    omega

theorem applyDelta_sumN (M K : ℕ) (ds : List ℕ) (cf : List Bool) (s : StateData)
    (hds : ds.length = M) (hcf : cf.length = K) (hMK : M ≤ K)
    (hshape : hasShape s.N M K) (hdsK : ∀ i ∈ ds, i < K) :
    matSum (applyDelta M K ds cf s).N = matSum s.N + M := by
  have hdef : applyDelta M K ds cf s
      = (((List.range M).zip ds).zip (cf.zip (collisionsOf ds K))).foldl
          deltaStep (deltaInit s) := rfl
  have hcoll : (collisionsOf ds K).length = K := by simp [collisionsOf]
  have hlen : (((List.range M).zip ds).zip (cf.zip (collisionsOf ds K))).length = M := by
    simp [List.length_zip, hds, hcf, hcoll]
    omega
  have hq : ∀ q ∈ ((List.range M).zip ds).zip (cf.zip (collisionsOf ds K)),
      q.1.1 < M ∧ q.1.2 < K := by
    intro q hmem
    obtain ⟨h1, h2⟩ := List.of_mem_zip hmem
    obtain ⟨h3, h4⟩ := List.of_mem_zip h1
    exact ⟨List.mem_range.mp h3, hdsK _ h4⟩
  rw [hdef, foldl_deltaStep_N_sum _ (deltaInit s) M K hshape hq, hlen]
  rfl

/-- C4, counterexample: with M = 2 players the claim fails.  The all-zero
2×2 state satisfies t = sum(N) at construction, but after one transition
(decision profile (0,1), all coin flips 0) the child has t = 1 while
sum(N) = 2, so the delta does not preserve t = sum(N). -/
theorem C4_counterexample_two_players :
    (StateData.make [[0,0],[0,0]] [[0,0],[0,0]] [[0,0],[0,0]] [[0,0],[0,0]] 0).t
      = matSum (StateData.make [[0,0],[0,0]] [[0,0],[0,0]] [[0,0],[0,0]] [[0,0],[0,0]] 0).N ∧
    (applyDelta 2 2 [0, 1] [false, false]
        (StateData.make [[0,0],[0,0]] [[0,0],[0,0]] [[0,0],[0,0]] [[0,0],[0,0]] 0)).t
      ≠ matSum (applyDelta 2 2 [0, 1] [false, false]
        (StateData.make [[0,0],[0,0]] [[0,0],[0,0]] [[0,0],[0,0]] [[0,0],[0,0]] 0)).N := by
  decide

/-- C4 (amended): t = sum(N) holds at construction (the constructor computes
t as np.sum(N)); a transition delta increments t by exactly 1 while it
increases sum(N) by exactly M (one increment per player), so starting from a
state with t = sum(N) the delta preserves the equality precisely when
M = 1. -/
theorem C4_time_step_amended (M K : ℕ) (ds : List ℕ) (cf : List Bool)
    (s : StateData) (hds : ds.length = M) (hcf : cf.length = K) (hMK : M ≤ K)
    (hshape : hasShape s.N M K) (hdsK : ∀ i ∈ ds, i < K) :
    (∀ S0 St0 N0 Nt0 : Mat, ∀ dep : ℤ,
      (StateData.make S0 St0 N0 Nt0 dep).t = matSum N0) ∧
    (applyDelta M K ds cf s).t = s.t + 1 ∧
    matSum (applyDelta M K ds cf s).N = matSum s.N + M ∧
    (s.t = matSum s.N →
      ((applyDelta M K ds cf s).t = matSum (applyDelta M K ds cf s).N ↔ M = 1)) := by
  have h3 := applyDelta_sumN M K ds cf s hds hcf hMK hshape hdsK
  refine ⟨fun _ _ _ _ _ => rfl, applyDelta_t M K ds cf s, h3, ?_⟩
  intro ht
  rw [applyDelta_t, h3, ht]
  omega

/-- Witness for C4 (amended) at a concrete input: one player, one arm,
all-zero state, decision [0], coin flip 1. -/
theorem C4_time_step_amended_witness :
    (∀ S0 St0 N0 Nt0 : Mat, ∀ dep : ℤ,
      (StateData.make S0 St0 N0 Nt0 dep).t = matSum N0) ∧
    (applyDelta 1 1 [0] [true] (StateData.make [[0]] [[0]] [[0]] [[0]] 0)).t
      = (StateData.make [[0]] [[0]] [[0]] [[0]] 0).t + 1 ∧
    matSum (applyDelta 1 1 [0] [true] (StateData.make [[0]] [[0]] [[0]] [[0]] 0)).N
      = matSum (StateData.make [[0]] [[0]] [[0]] [[0]] 0).N + 1 ∧
    ((StateData.make [[0]] [[0]] [[0]] [[0]] 0).t
        = matSum (StateData.make [[0]] [[0]] [[0]] [[0]] 0).N →
      ((applyDelta 1 1 [0] [true] (StateData.make [[0]] [[0]] [[0]] [[0]] 0)).t
          = matSum (applyDelta 1 1 [0] [true]
              (StateData.make [[0]] [[0]] [[0]] [[0]] 0)).N ↔ 1 = 1)) :=
  C4_time_step_amended 1 1 [0] [true] (StateData.make [[0]] [[0]] [[0]] [[0]] 0)
    rfl rfl (le_refl 1) ⟨rfl, by decide⟩ (by decide)

theorem one_le_foldl_min (l : List ℕ) (x : ℕ) :
    1 ≤ l.foldl Nat.min x ↔ 1 ≤ x ∧ ∀ y ∈ l, 1 ≤ y := by
  induction l generalizing x with
  | nil => simp
  | cons y ys ih =>
    rw [List.foldl_cons, ih]
    constructor
    · rintro ⟨h1, h2⟩
      rw [Nat.le_min] at h1
      exact ⟨h1.1, fun z hz => by
        rcases List.mem_cons.mp hz with rfl | hm
        · exact h1.2
        · exact h2 z hm⟩
    · rintro ⟨h1, h2⟩
      exact ⟨Nat.le_min.mpr ⟨h1, h2 y (by simp)⟩, fun z hz => h2 z (by simp [hz])⟩

theorem matMin_pos_iff (m : Mat) (hne : m.flatten ≠ []) :
    1 ≤ matMin m ↔ ∀ r ∈ m, ∀ x ∈ r, 1 ≤ x := by
  unfold matMin
  match h : m.flatten with
  | [] => exact absurd h hne
  | x :: xs =>
    rw [one_le_foldl_min]
    constructor
    · rintro ⟨h1, h2⟩ r hr v hv
      have hvf : v ∈ m.flatten := List.mem_flatten.mpr ⟨r, hr, hv⟩
      rw [h] at hvf
      rcases List.mem_cons.mp hvf with rfl | hmem
      · exact h1
      · exact h2 _ hmem
    · intro hall
      constructor
      · have hx : x ∈ m.flatten := by rw [h]; simp
        obtain ⟨r, hr, hv⟩ := List.mem_flatten.mp hx
        exact hall r hr x hv
      · intro y hy
        have hyf : y ∈ m.flatten := by rw [h]; simp [hy]
        obtain ⟨r, hr, hv⟩ := List.mem_flatten.mp hyf
        exact hall r hr y hv

theorem dedup_length_iff {γ : Type _} [DecidableEq γ] (l : List γ) :
    l.dedup.length = l.length ↔ l.Nodup := by
  constructor
  · intro h
    have hsub : l.dedup.Sublist l := List.dedup_sublist l
    have heq : l.dedup = l := hsub.eq_of_length h
    rw [← heq]
    exact l.nodup_dedup
  · intro h
    rw [List.dedup_eq_self.mpr h]

/-- C8: `is_absorbing` returns true exactly when every entry of `N` is at
least 1 (every arm tried at least once by every player) and some pair of
distinct players `j1 < j2 < M` has identical rows in all four statistics
matrices, with the shared `S` row consisting of `K` pairwise distinct values
(stated as `Nodup`, equivalent to `len(set(row)) == K` for a row of length
`K`).  Hypotheses: the four matrices have shape `M × K` with
`1 ≤ M ≤ K`, as guaranteed by the driver. -/
theorem C8_is_absorbing_iff (s : StateData) (M K : ℕ)
    (hS : hasShape s.S M K) (hSt : hasShape s.Stilde M K)
    (hN : hasShape s.N M K) (hNt : hasShape s.Ntilde M K)
    (hM : 1 ≤ M) (hMK : M ≤ K) :
    (s.is_absorbing = true) ↔
      ((∀ r ∈ s.N, ∀ x ∈ r, 1 ≤ x) ∧
        ∃ j1 j2 : ℕ, j1 < j2 ∧ j2 < M ∧
          s.S.getD j1 [] = s.S.getD j2 [] ∧
          s.Stilde.getD j1 [] = s.Stilde.getD j2 [] ∧
          s.N.getD j1 [] = s.N.getD j2 [] ∧
          s.Ntilde.getD j1 [] = s.Ntilde.getD j2 [] ∧
          (s.S.getD j1 []).Nodup) := by
  have hKpos : 1 ≤ K := le_trans hM hMK
  have hrow0 : (s.S.headD []).length = K := by
    have hne : s.S ≠ [] := by
      intro hc
      rw [hc] at hS
      simp [hasShape] at hS
      omega
    obtain ⟨r, rest, hcons⟩ := List.exists_cons_of_ne_nil hne
    rw [hcons]
    exact hS.2 r (by rw [hcons]; simp)
  have hMdim : s.Mdim = M := by
    unfold StateData.Mdim
    rw [hrow0, hS.1]
    exact Nat.min_eq_left hMK
  have hKdim : s.Kdim = K := by
    unfold StateData.Kdim
    rw [hrow0, hS.1]
    exact Nat.max_eq_right hMK
  have hNflat : s.N.flatten ≠ [] := by
    have hne : s.N ≠ [] := by
      intro hc
      rw [hc] at hN
      simp [hasShape] at hN
      omega
    obtain ⟨r, rest, hcons⟩ := List.exists_cons_of_ne_nil hne
    have hr : r.length = K := hN.2 r (by rw [hcons]; simp)
    have hrne : r ≠ [] := by
      intro hc
      rw [hc] at hr
      simp at hr
      omega
    rw [hcons]
    simp [List.flatten_cons]
    intro hc
    exact absurd hc hrne
  have hrowlen : ∀ j1 : ℕ, j1 < M → (s.S.getD j1 []).length = K := by
    intro j1 hj1
    exact hS.2 _ (getD_mem_of_lt _ _ _ (by rw [hS.1]; omega))
  unfold StateData.is_absorbing
  by_cases hmin : matMin s.N < 1
  · rw [if_pos hmin]
    simp only [Bool.false_eq_true, false_iff]
    rintro ⟨hall, -⟩
    have := (matMin_pos_iff s.N hNflat).mpr hall
    omega
  · rw [if_neg hmin]
    have hall : ∀ r ∈ s.N, ∀ x ∈ r, 1 ≤ x :=
      (matMin_pos_iff s.N hNflat).mp (by omega)
    rw [List.any_eq_true]
    constructor
    · rintro ⟨j1, hj1, hinner⟩
      rw [List.any_eq_true] at hinner
      obtain ⟨j2, hj2, hcond⟩ := hinner
      rw [List.mem_filter] at hj2
      obtain ⟨hj2r, hj12⟩ := hj2
      have hj12' : j1 < j2 := of_decide_eq_true hj12
      have hj2M : j2 < M := by
        have := List.mem_range.mp hj2r
        omega
      rw [hMdim] at hj2r
      by_cases hc : (s.S.getD j1 [] = s.S.getD j2 [] ∧
          s.Stilde.getD j1 [] = s.Stilde.getD j2 [] ∧
          s.N.getD j1 [] = s.N.getD j2 [] ∧
          s.Ntilde.getD j1 [] = s.Ntilde.getD j2 [])
      · rw [if_pos hc] at hcond
        have hdedup := of_decide_eq_true hcond
        rw [hKdim] at hdedup
        have hj1M : j1 < M := by omega
        refine ⟨hall, j1, j2, hj12', hj2M, hc.1, hc.2.1, hc.2.2.1, hc.2.2.2, ?_⟩
        exact (dedup_length_iff _).mp (by rw [hdedup, hrowlen j1 hj1M])
      · rw [if_neg hc] at hcond
        exact absurd hcond (by simp)
    · rintro ⟨-, j1, j2, hj12, hj2M, he1, he2, he3, he4, hnd⟩
      have hj1M : j1 < M := by omega
      refine ⟨j1, by rw [List.mem_range, hMdim]; omega, ?_⟩
      rw [List.any_eq_true]
      refine ⟨j2, ?_, ?_⟩
      · rw [List.mem_filter, List.mem_range, hMdim]
        exact ⟨hj2M, decide_eq_true hj12⟩
      · rw [if_pos ⟨he1, he2, he3, he4⟩, hKdim]
        apply decide_eq_true
        rw [← hrowlen j1 hj1M]
        exact (dedup_length_iff _).mpr hnd

/-- Witness for C8 at a concrete absorbing state: two players, two arms,
identical rows with two distinct values in the shared S row. -/
theorem C8_is_absorbing_iff_witness :
    ((StateData.make [[1,0],[1,0]] [[1,0],[1,0]] [[1,1],[1,1]] [[1,1],[1,1]] 0).is_absorbing
        = true) ↔
      ((∀ r ∈ (StateData.make [[1,0],[1,0]] [[1,0],[1,0]] [[1,1],[1,1]] [[1,1],[1,1]] 0).N,
          ∀ x ∈ r, 1 ≤ x) ∧
        ∃ j1 j2 : ℕ, j1 < j2 ∧ j2 < 2 ∧
          (StateData.make [[1,0],[1,0]] [[1,0],[1,0]] [[1,1],[1,1]] [[1,1],[1,1]] 0).S.getD j1 []
            = (StateData.make [[1,0],[1,0]] [[1,0],[1,0]] [[1,1],[1,1]] [[1,1],[1,1]] 0).S.getD j2 [] ∧
          (StateData.make [[1,0],[1,0]] [[1,0],[1,0]] [[1,1],[1,1]] [[1,1],[1,1]] 0).Stilde.getD j1 []
            = (StateData.make [[1,0],[1,0]] [[1,0],[1,0]] [[1,1],[1,1]] [[1,1],[1,1]] 0).Stilde.getD j2 [] ∧
          (StateData.make [[1,0],[1,0]] [[1,0],[1,0]] [[1,1],[1,1]] [[1,1],[1,1]] 0).N.getD j1 []
            = (StateData.make [[1,0],[1,0]] [[1,0],[1,0]] [[1,1],[1,1]] [[1,1],[1,1]] 0).N.getD j2 [] ∧
          (StateData.make [[1,0],[1,0]] [[1,0],[1,0]] [[1,1],[1,1]] [[1,1],[1,1]] 0).Ntilde.getD j1 []
            = (StateData.make [[1,0],[1,0]] [[1,0],[1,0]] [[1,1],[1,1]] [[1,1],[1,1]] 0).Ntilde.getD j2 [] ∧
          ((StateData.make [[1,0],[1,0]] [[1,0],[1,0]] [[1,1],[1,1]] [[1,1],[1,1]] 0).S.getD j1 []).Nodup) :=
  C8_is_absorbing_iff (StateData.make [[1,0],[1,0]] [[1,0],[1,0]] [[1,1],[1,1]] [[1,1],[1,1]] 0)
    2 2 ⟨rfl, by decide⟩ ⟨rfl, by decide⟩ ⟨rfl, by decide⟩ ⟨rfl, by decide⟩
    (by norm_num) (le_refl 2)

/-- C7: with M = 1 player, K = 1 arm, symbolic mean p and depth 1, exploring
from the all-zero root (with the default policy) yields exactly two unique
leaves: first the leaf with N = [[1]], S = [[0]] at probability 1 - p, then
the leaf with N = [[1]], S = [[1]] at probability p (both with t = 1 and
depth 0).  Stated over an arbitrary field, covering rational and symbolic
means alike. -/
theorem C7_one_player_one_arm_scenario {α : Type} [Field α] (p : α) :
    getUniqueLeafs (explore 1 1 [p] [default_policy]
        (StateData.make [[0]] [[0]] [[0]] [[0]] 0) 1)
      = [(StateData.make [[0]] [[0]] [[1]] [[1]] 0, 1 - p),
         (StateData.make [[1]] [[1]] [[1]] [[1]] 0, p)] := by
  have hch : (computeOneDepth (α := α) 1 1 [p] [default_policy]
      (StateData.make [[0]] [[0]] [[0]] [[0]] 0)).2
      = [(StateData.make [[0]] [[0]] [[1]] [[1]] 0, ((1 - p) * 1) / ((1 : ℕ) : α)),
         (StateData.make [[1]] [[1]] [[1]] [[1]] 0, (p * 1) / ((1 : ℕ) : α))] := rfl
  rw [getUniqueLeafs, explore_succ_eq, getAllLeafs_shallow _ _ (by simp), hch]
  simp only [List.map_cons, List.map_nil]
  norm_num [explore, ETree.data, dedupSum, dedupIns, StateData.make]
